import Mathlib

/-!
Verification of the `misc-utility` repository's Kubernetes upgrade sequencer
(`scripts/k8s-upgrade/main.py`) and the single-host upgrade-and-notify script
(`update-k8s-node.py`).

The Python scripts are shallowly embedded: remote command execution is an
oracle `Env` mapping (host, executed command string) to a captured result
(exit status, stdout, stderr); each script run is a pure function from that
oracle to a final outcome (`Except Nat`, mirroring `sys.exit(1)`) together
with a trace of observable side effects (password prompt, SSH connect/close,
remote command dispatch).
-/

namespace K8sUpgrade

/-- Result of one remote command: exit status plus captured stdout/stderr,
as produced by `client.exec_command` in `runCmd` (main.py lines 63-69). -/
structure CmdRes where
  exitStatus : Nat
  stdout : String
  stderr : String
deriving DecidableEq, Repr

/-- Python `str.strip()` on a character list: whitespace removed from both ends. -/
def stripL (l : List Char) : List Char :=
  ((l.dropWhile Char.isWhitespace).reverse.dropWhile Char.isWhitespace).reverse

/-- Python `str.strip()`, as applied to captured stdout in `runCmd` (line 76). -/
def strip (s : String) : String := ⟨stripL s.data⟩

/-- Outcome of `runCmd` (main.py lines 58-76) given the captured result of the
underlying command: a non-zero exit status calls `sys.exit(1)` (modelled as
`Except.error 1`); otherwise the stripped stdout is returned.  Non-empty stderr
with a zero exit status is only logged as a warning and does not affect the
outcome, which is why `stderr` is not consulted here. -/
def runCmd (r : CmdRes) : Except Nat String :=
  if r.exitStatus = 0 then Except.ok (strip r.stdout) else Except.error 1

/-- The privilege-escalation wrapping of every command in this script:
`runCmd` is always called with `sudo=True`, so the dispatched command is
`sudo -S -p '' <cmd>` (main.py line 62). -/
def sudoWrap (c : String) : String := "sudo -S -p \x27\x27 " ++ c

/-- The remote-execution oracle: what each host answers to each dispatched
(already sudo-wrapped) command. -/
def Env : Type := String → String → CmdRes

/-- The fleet inventory, as produced by `read_inventory` (main.py lines 21-31):
hosts grouped by role, order preserved within each role. -/
structure Inventory where
  control : List String
  worker : List String
deriving DecidableEq, Repr

/-- Observable side effects of a run: the interactive password prompt
(`getpass.getpass`, line 229), SSH session open (`ssh_connect`) and close
(`client.close()`), and dispatch of a remote command (recorded with the raw,
unwrapped command text, exactly as `runCmd` logs it on line 60). -/
inductive Ev where
  | getpass
  | connect (host : String)
  | close (host : String)
  | cmd (host : String) (command : String)
deriving DecidableEq, Repr

/-! ### The remote command strings of the sequencer, verbatim from the source -/

/-- main.py line 82. -/
def catCmd : String := "cat /etc/apt/sources.list.d/kubernetes.list"

/-- main.py line 100. -/
def madisonCmd : String := "apt-cache madison kubeadm | head -1"

/-- main.py line 204 (`remove_hold`). -/
def unholdCmd : String := "apt-mark unhold kubeadm kubelet kubectl"

/-- main.py line 215 (`add_hold`). -/
def holdCmd : String := "apt-mark hold kubeadm kubelet kubectl"

/-- main.py line 133. -/
def aptUpdateCmd : String := "apt-get update -y"

/-- main.py line 147. -/
def drainCmd : String :=
  "kubectl drain $(hostname) --ignore-daemonsets --delete-local-data"

/-- main.py line 191. -/
def uncordonCmd : String := "kubectl uncordon $(hostname)"

/-- main.py line 171. -/
def daemonReloadCmd : String := "systemctl daemon-reload"

/-- main.py line 178. -/
def restartKubeletCmd : String := "systemctl restart kubelet"

/-- Constant part of the command on main.py line 137. -/
def kubeadmInstallPre : String := "apt-get install -y kubeadm="

/-- main.py line 137: `apt-get install -y kubeadm={kube_version}-1.1`. -/
def kubeadmInstallCmd (v : String) : String := kubeadmInstallPre ++ v ++ "-1.1"

/-- Constant part of the command on main.py line 164. -/
def kubeletInstallPre : String := "apt-get install -y kubelet="

/-- main.py line 164:
`apt-get install -y kubelet={kube_version}-1.1 kubectl={kube_version}-1.1`. -/
def kubeletInstallCmd (v : String) : String :=
  kubeletInstallPre ++ v ++ "-1.1 kubectl=" ++ v ++ "-1.1"

/-- Constant part of the command on main.py line 155. -/
def applyMarker : String := "kubeadm upgrade apply -y v"

/-- main.py line 155: `kubeadm upgrade apply -y v{kube_version}`. -/
def applyCmd (v : String) : String := applyMarker ++ v

/-- Constant part of the `sed` command on main.py line 117. -/
def sedPre : String := "sed -i \x27s|/v[0-9]\\+\\.[0-9]\\+/deb/|/v"

/-- Constant tail of the `sed` command on main.py line 117. -/
def sedSuf : String := "/deb/|\x27 /etc/apt/sources.list.d/kubernetes.list"

/-- main.py line 117 (`update_k8s_sources`): the in-place `sed` substitution
command parametrised by the new minor version. -/
def sedCmd (m : String) : String := sedPre ++ m ++ sedSuf

/-! ### The per-host Upgrade Procedure -/

/-- The straight-line command sequence of `upgrade_k8s_node`
(main.py lines 125-197), with `remove_hold`/`add_hold` inlined: unhold,
index refresh, kubeadm install, then (control only) drain and upgrade-apply,
then kubelet+kubectl install, daemon-reload, kubelet restart, re-hold, and
(control only) uncordon. -/
def upgCmds (isControl : Bool) (v : String) : List String :=
  [unholdCmd, aptUpdateCmd, kubeadmInstallCmd v]
    ++ (if isControl then [drainCmd, applyCmd v] else [])
    ++ [kubeletInstallCmd v, daemonReloadCmd, restartKubeletCmd, holdCmd]
    ++ (if isControl then [uncordonCmd] else [])

/-- Run a sequence of sudo commands on one host, stopping at the first failure
exactly as the chained `runCmd` calls do (each failing call exits the whole
process). -/
def runAll (env : Env) (h : String) : List String → Except Nat Unit × List Ev
  | [] => (Except.ok (), [])
  | c :: cs =>
    match runCmd (env h (sudoWrap c)) with
    | Except.error n => (Except.error n, [Ev.cmd h c])
    | Except.ok _ =>
      match runAll env h cs with
      | (r, t) => (r, Ev.cmd h c :: t)

/-- `upgrade_k8s_node` (main.py lines 125-197) on an already-open session. -/
def upgrade_k8s_node (env : Env) (h : String) (v : String) (isControl : Bool) :
    Except Nat Unit × List Ev :=
  runAll env h (upgCmds isControl v)

/-! ### Version extraction (the two regular expressions) -/

/-- Match of `re.search(r"v(\d+\.\d+)/deb", ...)` attempted at one position
(main.py line 87); returns the captured group.  The `\d+` atoms are maximal
runs of digits, which coincides with the backtracking semantics here because
each is followed by a non-digit literal. -/
def matchCurAt (l : List Char) : Option (List Char) :=
  match l with
  | 'v' :: r =>
    let d1 := r.takeWhile Char.isDigit
    if d1 = [] then none
    else
      match r.dropWhile Char.isDigit with
      | '.' :: r2 =>
        let d2 := r2.takeWhile Char.isDigit
        if d2 = [] then none
        else
          match r2.dropWhile Char.isDigit with
          | '/' :: 'd' :: 'e' :: 'b' :: _ => some (d1 ++ '.' :: d2)
          | _ => none
      | _ => none
  | _ => none

/-- Match of `re.search(r"\|\s*(\d+\.\d+\.\d+)-", ...)` attempted at one
position (main.py line 105); returns the captured group. -/
def matchLatAt (l : List Char) : Option (List Char) :=
  match l with
  | '|' :: r =>
    let r0 := r.dropWhile Char.isWhitespace
    let d1 := r0.takeWhile Char.isDigit
    if d1 = [] then none
    else
      match r0.dropWhile Char.isDigit with
      | '.' :: r2 =>
        let d2 := r2.takeWhile Char.isDigit
        if d2 = [] then none
        else
          match r2.dropWhile Char.isDigit with
          | '.' :: r3 =>
            let d3 := r3.takeWhile Char.isDigit
            if d3 = [] then none
            else
              match r3.dropWhile Char.isDigit with
              | '-' :: _ => some (d1 ++ '.' :: d2 ++ '.' :: d3)
              | _ => none
          | _ => none
      | _ => none
  | _ => none

/-- `re.search`: try the pattern at every position, left to right. -/
def searchL (f : List Char → Option (List Char)) : List Char → Option (List Char)
  | [] => f []
  | c :: t =>
    match f (c :: t) with
    | some a => some a
    | none => searchL f t

/-- `get_current_k8s_version`'s extraction (main.py line 87): the first
`v(\d+\.\d+)/deb` group of the sources-list text. -/
def parseCurrent (s : String) : Option String :=
  (searchL matchCurAt s.data).map fun l => ⟨l⟩

/-- `get_latest_k8s_version`'s extraction (main.py line 105): the first
`\|\s*(\d+\.\d+\.\d+)-` group of the `apt-cache madison` output. -/
def parseLatest (s : String) : Option String :=
  (searchL matchLatAt s.data).map fun l => ⟨l⟩

/-! ### Python `split`/`join` and the minor-version derivation -/

/-- Python `str.split(sep)` (single-character separator) on character lists:
always at least one piece, empty pieces preserved. -/
def splitOnC (sep : Char) : List Char → List (List Char)
  | [] => [[]]
  | c :: t =>
    match splitOnC sep t with
    | [] => [[c]]
    | l :: ls => if c = sep then [] :: l :: ls else (c :: l) :: ls

/-- Python `sep.join(pieces)` (single-character separator) on character lists. -/
def joinC (sep : Char) : List (List Char) → List Char
  | [] => []
  | [l] => l
  | l :: l2 :: ls => l ++ sep :: joinC sep (l2 :: ls)

/-- main.py line 243: `".".join(latest_version.split(".")[:2])` — the minor
version is the full version truncated to its first two dot-separated
components. -/
def minorOf (s : String) : String := ⟨joinC '.' ((splitOnC '.' s.data).take 2)⟩

/-! ### Fleet orchestration (`main`, main.py lines 222-268) -/

/-- The source-rewrite loop (main.py lines 246-251): for each host of
`nodes["control"] + nodes["worker"]`, connect, run the `sed` command, close.
A command failure exits the process, so the close is skipped and later hosts
are not contacted. -/
def sedLoop (env : Env) (minor : String) : List String → Except Nat Unit × List Ev
  | [] => (Except.ok (), [])
  | h :: hs =>
    match runAll env h [sedCmd minor] with
    | (Except.error n, t) => (Except.error n, Ev.connect h :: t)
    | (Except.ok _, t) =>
      match sedLoop env minor hs with
      | (r, t2) => (r, (Ev.connect h :: (t ++ [Ev.close h])) ++ t2)

/-- The worker-upgrade loop (main.py lines 261-266): for each worker host,
connect, run the Upgrade Procedure with `is_control=False`, close. -/
def workerLoop (env : Env) (latest : String) : List String → Except Nat Unit × List Ev
  | [] => (Except.ok (), [])
  | w :: ws =>
    match runAll env w (upgCmds false latest) with
    | (Except.error n, t) => (Except.error n, Ev.connect w :: t)
    | (Except.ok _, t) =>
      match workerLoop env latest ws with
      | (r, t2) => (r, (Ev.connect w :: (t ++ [Ev.close w])) ++ t2)

/-- `main` (main.py lines 222-268) as a function of the inventory and the
remote-execution oracle.  Abort with exit code 1 and no side effect when the
inventory has no control-plane host; otherwise: prompt for the password,
connect to the first control-plane host, resolve the current and latest
versions there (each parse failure is fatal), derive the minor version,
rewrite sources on every host (control hosts first, then workers), run the
Upgrade Procedure on the first control-plane host with `is_control=True` over
the still-open first session, close that session, and finally run the
Upgrade Procedure on each worker with `is_control=False`. -/
def main (env : Env) (inv : Inventory) : Except Nat Unit × List Ev :=
  match inv.control with
  | [] => (Except.error 1, [])
  | c0 :: _ =>
    match runCmd (env c0 (sudoWrap catCmd)) with
    | Except.error n =>
      (Except.error n, [Ev.getpass, Ev.connect c0, Ev.cmd c0 catCmd])
    | Except.ok out1 =>
      match parseCurrent out1 with
      | none => (Except.error 1, [Ev.getpass, Ev.connect c0, Ev.cmd c0 catCmd])
      | some _cur =>
        match runCmd (env c0 (sudoWrap madisonCmd)) with
        | Except.error n =>
          (Except.error n,
            [Ev.getpass, Ev.connect c0, Ev.cmd c0 catCmd, Ev.cmd c0 madisonCmd])
        | Except.ok out2 =>
          match parseLatest out2 with
          | none =>
            (Except.error 1,
              [Ev.getpass, Ev.connect c0, Ev.cmd c0 catCmd, Ev.cmd c0 madisonCmd])
          | some latest =>
            match sedLoop env (minorOf latest) (inv.control ++ inv.worker) with
            | (Except.error n, t1) =>
              (Except.error n,
                [Ev.getpass, Ev.connect c0, Ev.cmd c0 catCmd, Ev.cmd c0 madisonCmd]
                  ++ t1)
            | (Except.ok _, t1) =>
              match upgrade_k8s_node env c0 latest true with
              | (Except.error n, t2) =>
                (Except.error n,
                  [Ev.getpass, Ev.connect c0, Ev.cmd c0 catCmd, Ev.cmd c0 madisonCmd]
                    ++ t1 ++ t2)
              | (Except.ok _, t2) =>
                match workerLoop env latest inv.worker with
                | (r, t3) =>
                  (r,
                    [Ev.getpass, Ev.connect c0, Ev.cmd c0 catCmd, Ev.cmd c0 madisonCmd]
                      ++ t1 ++ t2 ++ [Ev.close c0] ++ t3)

/-! ### String-prefix helpers used to classify command strings -/

/-- `lpre p s`: the character list `p` is a prefix of `s`. -/
def lpre : List Char → List Char → Bool
  | [], _ => true
  | _ :: _, [] => false
  | a :: p, b :: s => decide (a = b) && lpre p s

/-- `clash p q`: `p` and `q` differ at some position where both are defined. -/
def clash : List Char → List Char → Bool
  | a :: p, b :: q => if a = b then clash p q else true
  | _, _ => false

/-- Recognise the cluster-upgrade-apply command of main.py line 155: any
command string beginning `kubeadm upgrade apply -y v`. -/
def cmdIsApply (c : String) : Bool := lpre applyMarker.data c.data

/-- Recognise a dispatch event of the cluster-upgrade-apply command. -/
def evIsApply : Ev → Bool
  | Ev.cmd _ c => cmdIsApply c
  | _ => false

/-- The events of the source-rewrite loop when it completes. -/
def sedEvs (m : String) (hs : List String) : List Ev :=
  hs.flatMap fun h => [Ev.connect h, Ev.cmd h (sedCmd m), Ev.close h]

/-- The events of the worker-upgrade loop when it completes. -/
def workerEvs (v : String) (ws : List String) : List Ev :=
  ws.flatMap fun w =>
    Ev.connect w :: ((upgCmds false v).map (Ev.cmd w) ++ [Ev.close w])

/-- The full event trace of a successful fleet run: prompt; connect to the
first control-plane host; the two version queries there; the source rewrite
on every host in fleet order (a fresh session each, while the first session
stays open); the nine-step Upgrade Procedure on the first control-plane host
over the original session; closing that session; then each worker's
connect / seven-step procedure / close. -/
def fullTrace (inv : Inventory) (c0 latest : String) : List Ev :=
  Ev.getpass :: Ev.connect c0 :: Ev.cmd c0 catCmd :: Ev.cmd c0 madisonCmd ::
    (sedEvs (minorOf latest) (inv.control ++ inv.worker)
      ++ (upgCmds true latest).map (Ev.cmd c0)
      ++ [Ev.close c0]
      ++ workerEvs latest inv.worker)

/-! ### Session accounting: how many SSH sessions are open at each moment -/

/-- Session-count effect of one event: a connect opens one session, a close
ends one, everything else leaves the count unchanged. -/
def evDelta : Ev → Int
  | Ev.connect _ => 1
  | Ev.close _ => -1
  | _ => 0

/-- Net number of sessions opened minus closed over a whole trace. -/
def net (t : List Ev) : Int := (t.map evDelta).sum

/-- Largest number of simultaneously open sessions over all prefixes of the
trace (`peak (e :: t)` is the maximum of `0` and the count just after `e`
plus whatever later events add, so `peak t` bounds `net` of every prefix,
see `net_take_le_peak`). -/
def peak : List Ev → Int
  | [] => 0
  | e :: t => max 0 (evDelta e + peak t)

/-- At every moment of the trace, at most `b` remote sessions are open. -/
abbrev sessionBound (t : List Ev) (b : Int) : Prop := peak t ≤ b

/-! ### The `sed` substitution of `update_k8s_sources` as a content transform

main.py line 117 runs `sed -i 's|/v[0-9]\+\.[0-9]\+/deb/|/v{m}/deb/|' FILE`:
on every line of the file, the first occurrence of the pattern
`/v<digits>.<digits>/deb/` is replaced by `/v{m}/deb/`.  The functions below
model that transform on the file text. -/

/-- Match the literal tail `/deb/` of the sed pattern at the current position,
returning the rest of the line. -/
def matchSlashDeb (l : List Char) : Option (List Char) :=
  match l with
  | c1 :: c2 :: c3 :: c4 :: c5 :: r =>
    if c1 = '/' ∧ c2 = 'd' ∧ c3 = 'e' ∧ c4 = 'b' ∧ c5 = '/' then some r else none
  | _ => none

/-- Match `[0-9]\+` at the current position: at least one digit, consuming the
maximal digit run (equivalent to the backtracking semantics because each
digit run of the pattern is followed by a non-digit character). -/
def matchDigits1 (l : List Char) : Option (List Char) :=
  match l with
  | [] => none
  | c :: r => if c.isDigit then some (r.dropWhile Char.isDigit) else none

/-- Match `[0-9]\+/deb/` (the part of the sed pattern after the dot). -/
def matchAfterDot (l : List Char) : Option (List Char) :=
  match matchDigits1 l with
  | none => none
  | some r3 => matchSlashDeb r3

/-- Match `[0-9]\+\.[0-9]\+/deb/` (the part of the sed pattern after `/v`). -/
def matchVerTail (l : List Char) : Option (List Char) :=
  match matchDigits1 l with
  | none => none
  | some r1 =>
    match r1 with
    | c :: r2 => if c = '.' then matchAfterDot r2 else none
    | [] => none

/-- Match the whole sed pattern `/v[0-9]\+\.[0-9]\+/deb/` at the current
position, returning the rest of the line after the match. -/
def matchVer (l : List Char) : Option (List Char) :=
  match l with
  | c1 :: c2 :: r =>
    if c1 = '/' then if c2 = 'v' then matchVerTail r else none else none
  | _ => none

/-- `sed s|pat|repl|` on one line (no `g` flag): replace the first occurrence
of the pattern, scanning left to right; leave the line unchanged if the
pattern does not occur. -/
def substFirst (repl : List Char) : List Char → List Char
  | [] => []
  | c :: t =>
    match matchVer (c :: t) with
    | some r => repl ++ r
    | none => c :: substFirst repl t

/-- The replacement text `/v{m}/deb/` of the sed command. -/
def sedRepl (m : String) : List Char :=
  '/' :: 'v' :: (m.data ++ ['/', 'd', 'e', 'b', '/'])

/-- Effect of `update_k8s_sources` (main.py lines 113-122) on the content of
`/etc/apt/sources.list.d/kubernetes.list`: the sed substitution applied to
the first pattern occurrence of every line. -/
def update_k8s_sources (m : String) (content : String) : String :=
  ⟨joinC '\n' ((splitOnC '\n' content.data).map (substFirst (sedRepl m)))⟩

/-! ### Concrete oracles used as witnesses and counterexamples -/

/-- A plausible kubernetes.list file content, served as stdout of the `cat`. -/
def srcListOut : String :=
  "deb [signed-by=/etc/apt/keyrings/kubernetes-apt-keyring.gpg] https://pkgs.k8s.io/core:/stable:/v1.28/deb/ /"

/-- A plausible first line of `apt-cache madison kubeadm`. -/
def madisonOut : String :=
  "kubeadm | 1.29.4-1.1 | https://pkgs.k8s.io/core:/stable:/v1.29/deb  Packages"

/-- An oracle on which every command succeeds and the version queries return
the outputs above (current minor 1.28, latest 1.29.4). -/
def env0 : Env := fun _ c =>
  if c = sudoWrap catCmd then ⟨0, srcListOut, ""⟩
  else if c = sudoWrap madisonCmd then ⟨0, madisonOut, ""⟩
  else ⟨0, "", ""⟩

/-- Like `env0`, but the `apt-mark unhold` command fails on every host. -/
def envU : Env := fun h c =>
  if c = sudoWrap unholdCmd then ⟨1, "", "E: could not get lock"⟩ else env0 h c

/-! ### The single-host upgrade-and-notify script (update-k8s-node.py) -/

namespace UpdateNode

/-- An HTTP response of the companion notifier as seen through
`requests.post`: `ok` mirrors `response.ok`, `text` mirrors `response.text`. -/
structure Resp where
  ok : Bool
  text : String
deriving DecidableEq, Repr

/-- Outcome of one `requests.post` call: either an HTTP response was
received (`resp`, carrying `response.ok` and `response.text` — the response
may well be non-ok), or the call raised a transport-level exception (for
example `requests.exceptions.ConnectionError` when the notifier is
unreachable).  The script wraps no `requests.post` in a `try`, so a raised
exception propagates uncaught and the interpreter exits non-zero. -/
inductive PostRes where
  | resp (r : Resp)
  | raises
deriving DecidableEq, Repr

/-- The environment of one run of update-k8s-node.py: whether the
reboot-required marker file exists, the sorted package names reported by
`cache.get_changes()`, and the outcome of each of the three possible
`requests.post` calls. -/
structure NodeEnv where
  rebootRequired : Bool
  changes : List String
  postSkip : PostRes
  postChanges : PostRes
  postDone : PostRes
deriving DecidableEq, Repr

/-- Observable actions of update-k8s-node.py. -/
inductive NEv where
  | post (message : String)
  | printed (text : String)
  | updateCache
  | upgradeMark
  | commit
  | createRebootFile
deriving DecidableEq, Repr

/-- Python `s[:-2]`, as used to trim the trailing comma-space. -/
def pyDrop2 (s : String) : String := ⟨s.data.dropLast.dropLast⟩

/-- update-k8s-node.py line 15. -/
def skipMsg (hn : String) : String :=
  hn ++ ": Node is already scheduled for reboot. Skipping updates."

/-- update-k8s-node.py lines 33-40: header line, one `name, ` chunk per
package, then the trailing two characters removed. -/
def changesMsg (hn : String) (changes : List String) : String :=
  pyDrop2 (hn ++ ": The following updates will be applied:\n"
    ++ String.join (changes.map fun p => p ++ ", "))

/-- update-k8s-node.py line 57. -/
def doneMsg (hn : String) : String :=
  hn ++ ": Updates have been applied, scheduling the node to be rebooted."

/-- One notification attempt, i.e. one `requests.post` followed by
`if not response.ok: print(response.text)`: the post is dispatched; when a
response arrives, a non-ok response only gets its text printed and execution
continues; when the call raises, the exception is uncaught and the script
dies with a non-zero exit status (modelled as `Except.error 1`). -/
def postStep (p : PostRes) (msg : String) : Except Nat Unit × List NEv :=
  match p with
  | PostRes.raises => (Except.error 1, [NEv.post msg])
  | PostRes.resp r =>
    (Except.ok (), NEv.post msg :: (if r.ok then [] else [NEv.printed r.text]))

/-- `main` of update-k8s-node.py (lines 7-64) as its outcome plus the list
of actions it performs.  If the reboot marker exists, one notification is
attempted and the script returns.  Otherwise: refresh the package cache,
mark the upgrades, post the change summary, commit the upgrade, post the
completion message, create the reboot marker — where each notification
attempt can kill the script (see `postStep`), in which case none of the
later actions happens. -/
def update_k8s_node (env : NodeEnv) (hn : String) : Except Nat Unit × List NEv :=
  if env.rebootRequired then
    match postStep env.postSkip (skipMsg hn) with
    | (r, t) => (r, t)
  else
    match postStep env.postChanges (changesMsg hn env.changes) with
    | (Except.error n, t1) =>
      (Except.error n,
        [NEv.printed "Updating package cache...", NEv.updateCache,
         NEv.printed "Determining packages to upgrade...", NEv.upgradeMark,
         NEv.printed "Sending package list to discord..."] ++ t1)
    | (Except.ok _, t1) =>
      match postStep env.postDone (doneMsg hn) with
      | (Except.error n, t2) =>
        (Except.error n,
          [NEv.printed "Updating package cache...", NEv.updateCache,
           NEv.printed "Determining packages to upgrade...", NEv.upgradeMark,
           NEv.printed "Sending package list to discord..."] ++ t1
            ++ [NEv.printed "Performing package upgrade...", NEv.commit,
                NEv.printed "Notifying user of completion"] ++ t2)
      | (Except.ok _, t2) =>
        (Except.ok (),
          [NEv.printed "Updating package cache...", NEv.updateCache,
           NEv.printed "Determining packages to upgrade...", NEv.upgradeMark,
           NEv.printed "Sending package list to discord..."] ++ t1
            ++ [NEv.printed "Performing package upgrade...", NEv.commit,
                NEv.printed "Notifying user of completion"] ++ t2
            ++ [NEv.createRebootFile])

/-- Is the event a `print`? -/
def isPrinted : NEv → Bool
  | NEv.printed _ => true
  | _ => false

/-- A trace with all `print` output removed: what the script *does*, as
opposed to what it reports. -/
def stripPrints (t : List NEv) : List NEv := t.filter fun e => !(isPrinted e)

/-- A run on which both notifications get a response but a non-ok one. -/
def nodeEnvW : NodeEnv :=
  ⟨false, ["curl", "vim"], PostRes.resp ⟨true, ""⟩, PostRes.resp ⟨false, "boom"⟩,
   PostRes.resp ⟨false, "bam"⟩⟩

/-- A run on which the pre-upgrade change-summary post raises (the notifier
is unreachable). -/
def nodeEnvRaise : NodeEnv :=
  ⟨false, ["curl"], PostRes.resp ⟨true, ""⟩, PostRes.raises,
   PostRes.resp ⟨true, ""⟩⟩

end UpdateNode

theorem lpre_self_append (p r : List Char) : lpre p (p ++ r) = true := by
  induction p with
  | nil => rfl
  | cons a p ih => simp [lpre, ih]

theorem clash_lpre {p q : List Char} (h : clash p q = true) (z : List Char) :
    lpre p (q ++ z) = false := by
  induction p generalizing q with
  | nil => cases q with
    | nil => simp [clash] at h
    | cons b q => simp [clash] at h
  | cons a p ih =>
    cases q with
    | nil => simp [clash] at h
    | cons b q =>
      by_cases hab : a = b
      · subst hab
        simp only [clash, if_pos rfl] at h
        simp [lpre, ih h]
      · simp [lpre, hab]

theorem clash_ne {p q : List Char} (h : clash p q = true) : p ≠ q := by
  induction p generalizing q with
  | nil => cases q <;> simp [clash] at h ⊢
  | cons a p ih =>
    cases q with
    | nil => simp
    | cons b q =>
      by_cases hab : a = b
      · subst hab
        simp only [clash, if_pos rfl] at h
        simpa using ih h
      · simp [hab]

theorem str_ne {x y : String} (h : clash x.data y.data = true) : x ≠ y :=
  fun he => clash_ne h (congrArg String.data he)

/-! ### Trace characterisation of the loops and of a successful run -/

theorem runAll_ok_trace (env : Env) (h : String) (cs : List String)
    (hok : (runAll env h cs).1 = Except.ok ()) :
    (runAll env h cs).2 = cs.map (Ev.cmd h) := by
  induction cs with
  | nil => rfl
  | cons c cs ih =>
    simp only [runAll] at hok ⊢
    rcases hr : runCmd (env h (sudoWrap c)) with n | out
    · rw [hr] at hok; simp at hok
    · rw [hr] at hok
      simp only at hok ⊢
      simp [ih hok]

theorem runAll_mem (env : Env) (h : String) (cs : List String) (e : Ev)
    (he : e ∈ (runAll env h cs).2) : ∃ c ∈ cs, e = Ev.cmd h c := by
  induction cs with
  | nil => simp [runAll] at he
  | cons c cs ih =>
    simp only [runAll] at he
    rcases hr : runCmd (env h (sudoWrap c)) with n | out
    · rw [hr] at he
      simp at he
      exact ⟨c, by simp, he⟩
    · rw [hr] at he
      simp at he
      rcases he with he | he
      · exact ⟨c, by simp, he⟩
      · rcases ih he with ⟨c2, hc2, he2⟩
        exact ⟨c2, by simp [hc2], he2⟩

theorem runAll_head_fail (env : Env) (h c : String) (cs : List String)
    (hf : (env h (sudoWrap c)).exitStatus ≠ 0) :
    runAll env h (c :: cs) = (Except.error 1, [Ev.cmd h c]) := by
  simp [runAll, runCmd, hf]

theorem sedLoop_ok_trace (env : Env) (m : String) (hs : List String)
    (hok : (sedLoop env m hs).1 = Except.ok ()) :
    (sedLoop env m hs).2 = sedEvs m hs := by
  induction hs with
  | nil => rfl
  | cons h hs ih =>
    simp only [sedLoop] at hok ⊢
    rcases ha : runAll env h [sedCmd m] with ⟨r, t⟩
    rw [ha] at hok
    cases r with
    | error n => simp at hok
    | ok u =>
      simp only at hok ⊢
      have ht : t = [Ev.cmd h (sedCmd m)] := by
        have h2 := runAll_ok_trace env h [sedCmd m] (by rw [ha])
        rw [ha] at h2
        simpa using h2
      simp [sedEvs, ht, ih hok]

theorem workerLoop_ok_trace (env : Env) (v : String) (ws : List String)
    (hok : (workerLoop env v ws).1 = Except.ok ()) :
    (workerLoop env v ws).2 = workerEvs v ws := by
  induction ws with
  | nil => rfl
  | cons w ws ih =>
    simp only [workerLoop] at hok ⊢
    rcases ha : runAll env w (upgCmds false v) with ⟨r, t⟩
    rw [ha] at hok
    cases r with
    | error n => simp at hok
    | ok u =>
      simp only at hok ⊢
      have ht : t = (upgCmds false v).map (Ev.cmd w) := by
        have h2 := runAll_ok_trace env w (upgCmds false v) (by rw [ha])
        rw [ha] at h2
        simpa using h2
      simp [workerEvs, ht, ih hok]

/-- Master lemma: a run that succeeds produced exactly `fullTrace`, for the
latest version resolved on the first control-plane host. -/
theorem main_ok_trace (env : Env) (c0 : String) (cs ws : List String)
    (hok : (main env ⟨c0 :: cs, ws⟩).1 = Except.ok ()) :
    ∃ latest,
      main env ⟨c0 :: cs, ws⟩ = (Except.ok (), fullTrace ⟨c0 :: cs, ws⟩ c0 latest) := by
  simp only [main] at hok ⊢
  rcases h1 : runCmd (env c0 (sudoWrap catCmd)) with n | out1
  · rw [h1] at hok; simp at hok
  rw [h1] at hok
  simp only at hok ⊢
  rcases h2 : parseCurrent out1 with _ | cur
  · rw [h2] at hok; simp at hok
  rw [h2] at hok
  simp only at hok ⊢
  rcases h3 : runCmd (env c0 (sudoWrap madisonCmd)) with n | out2
  · rw [h3] at hok; simp at hok
  rw [h3] at hok
  simp only at hok ⊢
  rcases h4 : parseLatest out2 with _ | latest
  · rw [h4] at hok; simp at hok
  rw [h4] at hok
  simp only at hok ⊢
  refine ⟨latest, ?_⟩
  rcases h5 : sedLoop env (minorOf latest) (c0 :: cs ++ ws) with ⟨r5, t5⟩
  rw [h5] at hok
  cases r5 with
  | error n => simp at hok
  | ok u5 =>
    simp only at hok ⊢
    rcases h6 : upgrade_k8s_node env c0 latest true with ⟨r6, t6⟩
    rw [h6] at hok
    cases r6 with
    | error n => simp at hok
    | ok u6 =>
      simp only at hok ⊢
      rcases h7 : workerLoop env latest ws with ⟨r7, t7⟩
      rw [h7] at hok
      simp only at hok ⊢
      cases r7 with
      | error n => simp at hok
      | ok u7 =>
        have ht5 : t5 = sedEvs (minorOf latest) (c0 :: cs ++ ws) := by
          have h5b := sedLoop_ok_trace env (minorOf latest) (c0 :: cs ++ ws)
            (by rw [h5])
          rw [h5] at h5b
          simpa using h5b
        have ht6 : t6 = (upgCmds true latest).map (Ev.cmd c0) := by
          have h6u : runAll env c0 (upgCmds true latest) = (Except.ok u6, t6) := h6
          have h6b := runAll_ok_trace env c0 (upgCmds true latest) (by rw [h6u])
          rw [h6u] at h6b
          simpa using h6b
        have ht7 : t7 = workerEvs latest ws := by
          have h7b := workerLoop_ok_trace env latest ws (by rw [h7])
          rw [h7] at h7b
          simpa using h7b
        simp [fullTrace, ht5, ht6, ht7]

/-! ### Facts about the command strings -/

theorem cmdIsApply_applyCmd (v : String) : cmdIsApply (applyCmd v) = true :=
  lpre_self_append _ _

theorem cmdIsApply_kubeadmInstall (v : String) :
    cmdIsApply (kubeadmInstallCmd v) = false := by
  have h := clash_lpre
    (show clash applyMarker.data kubeadmInstallPre.data = true by decide)
    (v.data ++ "-1.1".data)
  simpa [cmdIsApply, kubeadmInstallCmd, List.append_assoc] using h

theorem cmdIsApply_kubeletInstall (v : String) :
    cmdIsApply (kubeletInstallCmd v) = false := by
  have h := clash_lpre
    (show clash applyMarker.data kubeletInstallPre.data = true by decide)
    (v.data ++ ("-1.1 kubectl=" ++ v ++ "-1.1").data)
  simpa [cmdIsApply, kubeletInstallCmd, List.append_assoc] using h

theorem cmdIsApply_sed (m : String) : cmdIsApply (sedCmd m) = false := by
  have h := clash_lpre
    (show clash applyMarker.data sedPre.data = true by decide)
    (m.data ++ sedSuf.data)
  simpa [cmdIsApply, sedCmd, List.append_assoc] using h

theorem drainCmd_not_mem_worker (v : String) : drainCmd ∉ upgCmds false v := by
  intro hm
  simp [upgCmds] at hm
  rcases hm with hm | hm | hm | hm | hm | hm | hm
  · exact absurd hm (by decide)
  · exact absurd hm (by decide)
  · exact (str_ne rfl : drainCmd ≠ kubeadmInstallCmd v) hm
  · exact (str_ne rfl : drainCmd ≠ kubeletInstallCmd v) hm
  · exact absurd hm (by decide)
  · exact absurd hm (by decide)
  · exact absurd hm (by decide)

theorem applyCmd_not_mem_worker (v v2 : String) : applyCmd v2 ∉ upgCmds false v := by
  intro hm
  simp [upgCmds] at hm
  rcases hm with hm | hm | hm | hm | hm | hm | hm
  · exact (str_ne rfl : applyCmd v2 ≠ unholdCmd) hm
  · exact (str_ne rfl : applyCmd v2 ≠ aptUpdateCmd) hm
  · exact (str_ne rfl : applyCmd v2 ≠ kubeadmInstallCmd v) hm
  · exact (str_ne rfl : applyCmd v2 ≠ kubeletInstallCmd v) hm
  · exact (str_ne rfl : applyCmd v2 ≠ daemonReloadCmd) hm
  · exact (str_ne rfl : applyCmd v2 ≠ restartKubeletCmd) hm
  · exact (str_ne rfl : applyCmd v2 ≠ holdCmd) hm

theorem uncordonCmd_not_mem_worker (v : String) : uncordonCmd ∉ upgCmds false v := by
  intro hm
  simp [upgCmds] at hm
  rcases hm with hm | hm | hm | hm | hm | hm | hm
  · exact absurd hm (by decide)
  · exact absurd hm (by decide)
  · exact (str_ne rfl : uncordonCmd ≠ kubeadmInstallCmd v) hm
  · exact (str_ne rfl : uncordonCmd ≠ kubeletInstallCmd v) hm
  · exact absurd hm (by decide)
  · exact absurd hm (by decide)
  · exact absurd hm (by decide)

/-- If the very first command of the Upgrade Procedure (the `apt-mark unhold`
of `remove_hold`) fails, the procedure stops there: its only dispatched
command is the unhold. -/
theorem upg_head_fail (env : Env) (h v : String) (isC : Bool)
    (hf : (env h (sudoWrap unholdCmd)).exitStatus ≠ 0) :
    upgrade_k8s_node env h v isC = (Except.error 1, [Ev.cmd h unholdCmd]) := by
  cases isC <;> simp [upgrade_k8s_node, upgCmds, runAll, runCmd, hf]

/-! ### The claims -/

/-- C10: for every remote command whose exit status is 0, `run_cmd` returns
the captured stdout with surrounding whitespace stripped and does not abort
the run; the captured stderr (empty or not) plays no role in this outcome,
so non-empty stderr with a zero exit status is never treated as a failure. -/
theorem claim_C10 (r : CmdRes) (h : r.exitStatus = 0) :
    runCmd r = Except.ok (strip r.stdout) := by
  simp [runCmd, h]

theorem claim_C10_witness :
    runCmd ⟨0, "  v1.28  \n", "W: some apt warning"⟩
      = Except.ok (strip "  v1.28  \n") :=
  claim_C10 ⟨0, "  v1.28  \n", "W: some apt warning"⟩ rfl

/-- C5: the minor version is the full version truncated to its first two
dot-separated components (`".".join(latest_version.split(".")[:2])`,
main.py line 243): for `"1.29.4"` it is `"1.29"`, for `"2.0.10"` it is
`"2.0"`.  No other lookup is involved: `minorOf` is a function of the
resolved full version alone, and `main` feeds `minorOf latest` to every
source rewrite (see `fullTrace`). -/
theorem claim_C5 : minorOf "1.29.4" = "1.29" ∧ minorOf "2.0.10" = "2.0" := by
  decide

/-- C8: with no control-plane host in the inventory the run aborts with exit
code 1 before any side effect: no password prompt, no connection, no remote
command — the trace is empty (main.py lines 224-226 exit before
`load_ssh_config` and `getpass.getpass`). -/
theorem claim_C8 (env : Env) (inv : Inventory) (h : inv.control = []) :
    main env inv = (Except.error 1, []) := by
  obtain ⟨ctrl, ws⟩ := inv
  simp only at h
  subst h
  rfl

theorem claim_C8_witness :
    main env0 ⟨[], ["w1", "w2"]⟩ = (Except.error 1, []) :=
  claim_C8 env0 ⟨[], ["w1", "w2"]⟩ rfl

/-- C1 fails on the code: with inventory `control = [alpha, beta]` and no
workers, every command succeeds and the fleet run completes, yet the second
control-plane host `beta` never receives any step of the Upgrade Procedure —
not even its first command, the `apt-mark unhold` (it only receives the
source rewrite).  `main` upgrades the first control-plane host and then
iterates over `nodes["worker"]` only (main.py lines 253-266). -/
theorem claim_C1_counterexample :
    (main env0 ⟨["alpha", "beta"], []⟩).1 = Except.ok () ∧
    Ev.cmd "alpha" unholdCmd ∈ (main env0 ⟨["alpha", "beta"], []⟩).2 ∧
    Ev.cmd "beta" unholdCmd ∉ (main env0 ⟨["alpha", "beta"], []⟩).2 :=
  ⟨rfl, by decide, by decide⟩

/-- C1, amended: after the first control-plane host is upgraded, the Upgrade
Procedure runs on every worker host, in inventory order, with
`is_control=false`; control-plane hosts other than the first are *not* run
through the Upgrade Procedure (they only receive the source rewrite).  The
trace of every successful run is exactly `fullTrace`, whose worker segment
`workerEvs` lists each worker's procedure in order and which contains no
unhold command for any additional control-plane host. -/
theorem claim_C1 (env : Env) (c0 : String) (cs ws : List String)
    (hok : (main env ⟨c0 :: cs, ws⟩).1 = Except.ok ()) :
    ∃ latest,
      main env ⟨c0 :: cs, ws⟩ = (Except.ok (), fullTrace ⟨c0 :: cs, ws⟩ c0 latest) ∧
      ∀ c ∈ cs, c ∉ ws → c ≠ c0 →
        Ev.cmd c unholdCmd ∉ (main env ⟨c0 :: cs, ws⟩).2 := by
  obtain ⟨latest, heq⟩ := main_ok_trace env c0 cs ws hok
  refine ⟨latest, heq, ?_⟩
  intro c _hcs hcw hcc0 hmem
  rw [heq] at hmem
  simp only [fullTrace] at hmem
  rcases List.mem_cons.mp hmem with he | hmem
  · exact Ev.noConfusion he
  rcases List.mem_cons.mp hmem with he | hmem
  · exact Ev.noConfusion he
  rcases List.mem_cons.mp hmem with he | hmem
  · injection he with e1 e2; exact hcc0 e1
  rcases List.mem_cons.mp hmem with he | hmem
  · injection he with e1 e2; exact hcc0 e1
  rcases List.mem_append.mp hmem with hA | hD
  · rcases List.mem_append.mp hA with hB | hC
    · rcases List.mem_append.mp hB with hS | hM
      · obtain ⟨hh, _, hin⟩ := List.mem_flatMap.mp hS
        rcases List.mem_cons.mp hin with he | hin
        · exact Ev.noConfusion he
        rcases List.mem_cons.mp hin with he | hin
        · injection he with e1 e2
          exact (str_ne rfl : sedCmd (minorOf latest) ≠ unholdCmd) e2.symm
        rcases List.mem_cons.mp hin with he | hin
        · exact Ev.noConfusion he
        · exact absurd hin (List.not_mem_nil _)
      · obtain ⟨c2, _, he⟩ := List.mem_map.mp hM
        injection he with e1 e2; exact hcc0 e1.symm
    · rcases List.mem_cons.mp hC with he | hC
      · exact Ev.noConfusion he
      · exact absurd hC (List.not_mem_nil _)
  · obtain ⟨w, hw, hin⟩ := List.mem_flatMap.mp hD
    rcases List.mem_cons.mp hin with he | hin
    · exact Ev.noConfusion he
    rcases List.mem_append.mp hin with hM | hC
    · obtain ⟨c2, _, he⟩ := List.mem_map.mp hM
      injection he with e1 e2
      exact hcw (e1 ▸ hw)
    · rcases List.mem_cons.mp hC with he | hC
      · exact Ev.noConfusion he
      · exact absurd hC (List.not_mem_nil _)

theorem claim_C1_witness :
    ∃ latest,
      main env0 ⟨["alpha", "beta"], ["w1"]⟩
        = (Except.ok (), fullTrace ⟨["alpha", "beta"], ["w1"]⟩ "alpha" latest) ∧
      ∀ c ∈ ["beta"], c ∉ ["w1"] → c ≠ "alpha" →
        Ev.cmd c unholdCmd ∉ (main env0 ⟨["alpha", "beta"], ["w1"]⟩).2 :=
  claim_C1 env0 "alpha" ["beta"] ["w1"] rfl

/-- C3: the Upgrade Procedure on a worker host (`is_control=false`) never
dispatches the drain, cluster-upgrade-apply, or uncordon command — under any
oracle, for any target version, whether it completes or aborts; and on a
control-plane host (`is_control=true`) a completed procedure dispatches
exactly the nine steps of spec §4.6 in their fixed order (ten commands, step
seven being daemon-reload followed by kubelet restart): unhold, index
refresh, kubeadm install, drain, apply, kubelet+kubectl install,
daemon-reload, kubelet restart, re-hold, uncordon. -/
theorem claim_C3 :
    (∀ (env : Env) (h v v2 : String),
      Ev.cmd h drainCmd ∉ (upgrade_k8s_node env h v false).2 ∧
      Ev.cmd h (applyCmd v2) ∉ (upgrade_k8s_node env h v false).2 ∧
      Ev.cmd h uncordonCmd ∉ (upgrade_k8s_node env h v false).2) ∧
    (∀ (env : Env) (h v : String),
      (upgrade_k8s_node env h v true).1 = Except.ok () →
      (upgrade_k8s_node env h v true).2
        = [Ev.cmd h unholdCmd, Ev.cmd h aptUpdateCmd,
           Ev.cmd h (kubeadmInstallCmd v), Ev.cmd h drainCmd,
           Ev.cmd h (applyCmd v), Ev.cmd h (kubeletInstallCmd v),
           Ev.cmd h daemonReloadCmd, Ev.cmd h restartKubeletCmd,
           Ev.cmd h holdCmd, Ev.cmd h uncordonCmd]) := by
  constructor
  · intro env h v v2
    refine ⟨fun hmem => ?_, fun hmem => ?_, fun hmem => ?_⟩
    · obtain ⟨c, hc, he⟩ := runAll_mem env h (upgCmds false v) _ hmem
      injection he with e1 e2
      exact drainCmd_not_mem_worker v (e2 ▸ hc)
    · obtain ⟨c, hc, he⟩ := runAll_mem env h (upgCmds false v) _ hmem
      injection he with e1 e2
      exact applyCmd_not_mem_worker v v2 (e2 ▸ hc)
    · obtain ⟨c, hc, he⟩ := runAll_mem env h (upgCmds false v) _ hmem
      injection he with e1 e2
      exact uncordonCmd_not_mem_worker v (e2 ▸ hc)
  · intro env h v hok
    have ht := runAll_ok_trace env h (upgCmds true v) hok
    simpa [upgCmds] using ht

theorem claim_C3_witness :
    (Ev.cmd "w1" drainCmd ∉ (upgrade_k8s_node env0 "w1" "1.29.4" false).2) ∧
    (upgrade_k8s_node env0 "alpha" "1.29.4" true).2
      = [Ev.cmd "alpha" unholdCmd, Ev.cmd "alpha" aptUpdateCmd,
         Ev.cmd "alpha" (kubeadmInstallCmd "1.29.4"), Ev.cmd "alpha" drainCmd,
         Ev.cmd "alpha" (applyCmd "1.29.4"),
         Ev.cmd "alpha" (kubeletInstallCmd "1.29.4"),
         Ev.cmd "alpha" daemonReloadCmd, Ev.cmd "alpha" restartKubeletCmd,
         Ev.cmd "alpha" holdCmd, Ev.cmd "alpha" uncordonCmd] :=
  ⟨(claim_C3.1 env0 "w1" "1.29.4" "1.29.4").1,
   claim_C3.2 env0 "alpha" "1.29.4" rfl⟩

/-- C4: any remote command exiting non-zero is fatal to the whole run.
First part: in any command sequence on a host, a failing first command makes
the run stop with exit code 1 having dispatched nothing beyond that command.
Second part, the claim's instance at fleet level: if the version resolution
and the source rewrites went through but `apt-mark unhold` fails on the
first control-plane host, the whole fleet run ends at exactly that command —
no Refresh-Index-through-Re-hold step runs on that host and no further host
is contacted (the trace ends at the failed unhold). -/
theorem claim_C4 :
    (∀ (env : Env) (h c : String) (cs : List String),
      (env h (sudoWrap c)).exitStatus ≠ 0 →
      runAll env h (c :: cs) = (Except.error 1, [Ev.cmd h c])) ∧
    (∀ (env : Env) (c0 : String) (cs ws : List String) (latest : String),
      (env c0 (sudoWrap catCmd)).exitStatus = 0 →
      (parseCurrent (strip (env c0 (sudoWrap catCmd)).stdout)).isSome →
      (env c0 (sudoWrap madisonCmd)).exitStatus = 0 →
      parseLatest (strip (env c0 (sudoWrap madisonCmd)).stdout) = some latest →
      (sedLoop env (minorOf latest) (c0 :: cs ++ ws)).1 = Except.ok () →
      (env c0 (sudoWrap unholdCmd)).exitStatus ≠ 0 →
      main env ⟨c0 :: cs, ws⟩
        = (Except.error 1,
            [Ev.getpass, Ev.connect c0, Ev.cmd c0 catCmd, Ev.cmd c0 madisonCmd]
              ++ (sedLoop env (minorOf latest) (c0 :: cs ++ ws)).2
              ++ [Ev.cmd c0 unholdCmd])) := by
  constructor
  · intro env h c cs hf
    exact runAll_head_fail env h c cs hf
  · intro env c0 cs ws latest h1 h2 h3 h4 h5 h6
    obtain ⟨cur, hcur⟩ := Option.isSome_iff_exists.mp h2
    simp only [main]
    rw [show runCmd (env c0 (sudoWrap catCmd))
        = Except.ok (strip (env c0 (sudoWrap catCmd)).stdout) by simp [runCmd, h1]]
    simp only
    rw [hcur]
    simp only
    rw [show runCmd (env c0 (sudoWrap madisonCmd))
        = Except.ok (strip (env c0 (sudoWrap madisonCmd)).stdout) by simp [runCmd, h3]]
    simp only
    rw [h4]
    simp only
    rcases hsl : sedLoop env (minorOf latest) (c0 :: cs ++ ws) with ⟨r5, t5⟩
    rw [hsl] at h5
    simp only at h5
    cases r5 with
    | error n => exact absurd h5 (by simp)
    | ok u5 =>
      simp only
      rw [upg_head_fail env c0 latest true h6]

theorem claim_C4_witness :
    runAll envU "w1" (unholdCmd :: [aptUpdateCmd])
        = (Except.error 1, [Ev.cmd "w1" unholdCmd]) ∧
    main envU ⟨["alpha"], ["w1"]⟩
      = (Except.error 1,
          [Ev.getpass, Ev.connect "alpha", Ev.cmd "alpha" catCmd,
           Ev.cmd "alpha" madisonCmd]
            ++ (sedLoop envU (minorOf "1.29.4") (["alpha"] ++ ["w1"])).2
            ++ [Ev.cmd "alpha" unholdCmd]) :=
  ⟨claim_C4.1 envU "w1" unholdCmd [aptUpdateCmd] (by decide),
   claim_C4.2 envU "alpha" [] ["w1"] "1.29.4" (by decide) (by decide) (by decide)
     (by decide) rfl (by decide)⟩

/-! ### C2: the cluster-upgrade-apply command is dispatched exactly once -/

theorem cmdIsApply_worker_false (v c : String) (hc : c ∈ upgCmds false v) :
    cmdIsApply c = false := by
  simp [upgCmds] at hc
  rcases hc with rfl | rfl | rfl | rfl | rfl | rfl | rfl
  · decide
  · decide
  · exact cmdIsApply_kubeadmInstall v
  · exact cmdIsApply_kubeletInstall v
  · decide
  · decide
  · decide

theorem countP_evIsApply_map (h : String) (cs : List String) :
    (cs.map (Ev.cmd h)).countP evIsApply = cs.countP cmdIsApply := by
  rw [List.countP_map]
  rfl

theorem countP_cmdIsApply_upg_true (v : String) :
    (upgCmds true v).countP cmdIsApply = 1 := by
  simp [upgCmds, List.countP_cons, List.countP_append,
    cmdIsApply_applyCmd, cmdIsApply_kubeadmInstall, cmdIsApply_kubeletInstall,
    show cmdIsApply unholdCmd = false by decide,
    show cmdIsApply aptUpdateCmd = false by decide,
    show cmdIsApply drainCmd = false by decide,
    show cmdIsApply daemonReloadCmd = false by decide,
    show cmdIsApply restartKubeletCmd = false by decide,
    show cmdIsApply holdCmd = false by decide,
    show cmdIsApply uncordonCmd = false by decide]

theorem countP_cmdIsApply_upg_false (v : String) :
    (upgCmds false v).countP cmdIsApply = 0 := by
  rw [List.countP_eq_zero]
  intro c hc
  simp [cmdIsApply_worker_false v c hc]

theorem countP_evIsApply_sedEvs (m : String) (hs : List String) :
    (sedEvs m hs).countP evIsApply = 0 := by
  induction hs with
  | nil => rfl
  | cons h hs ih =>
    simp [sedEvs, List.countP_cons, List.countP_append, evIsApply,
      cmdIsApply_sed] at ih ⊢
    simpa [sedEvs] using ih

theorem countP_evIsApply_workerEvs (v : String) (ws : List String) :
    (workerEvs v ws).countP evIsApply = 0 := by
  induction ws with
  | nil => rfl
  | cons w ws ih =>
    have hm : ((upgCmds false v).map (Ev.cmd w)).countP evIsApply = 0 := by
      rw [countP_evIsApply_map, countP_cmdIsApply_upg_false]
    simp [workerEvs, List.countP_cons, List.countP_append, evIsApply, hm] at ih ⊢
    simpa [workerEvs] using ih

/-- C2: on every fleet run that completes, the cluster-upgrade-apply command
(`kubeadm upgrade apply`) is dispatched exactly once, and every dispatch of
it in the trace is addressed to the first control-plane host of the
inventory — never to a worker, never to an additional control-plane host. -/
theorem claim_C2 (env : Env) (inv : Inventory)
    (hok : (main env inv).1 = Except.ok ()) :
    ∃ c0, inv.control.head? = some c0 ∧
      (main env inv).2.countP evIsApply = 1 ∧
      ∀ h c, Ev.cmd h c ∈ (main env inv).2 → cmdIsApply c = true → h = c0 := by
  obtain ⟨ctrl, ws⟩ := inv
  cases ctrl with
  | nil => exact absurd hok (by simp [main])
  | cons c0 cs =>
    obtain ⟨latest, heq⟩ := main_ok_trace env c0 cs ws hok
    refine ⟨c0, rfl, ?_, ?_⟩
    · rw [heq]
      simp only [fullTrace]
      simp [List.countP_cons, List.countP_append, evIsApply,
        countP_evIsApply_sedEvs, countP_evIsApply_workerEvs,
        countP_evIsApply_map, countP_cmdIsApply_upg_true,
        show cmdIsApply catCmd = false by decide,
        show cmdIsApply madisonCmd = false by decide]
      rw [show (evIsApply ∘ Ev.cmd c0) = cmdIsApply from rfl]
      exact countP_cmdIsApply_upg_true latest
    · intro h c hmem happ
      rw [heq] at hmem
      simp only [fullTrace] at hmem
      rcases List.mem_cons.mp hmem with he | hmem
      · exact Ev.noConfusion he
      rcases List.mem_cons.mp hmem with he | hmem
      · exact Ev.noConfusion he
      rcases List.mem_cons.mp hmem with he | hmem
      · simp at he; exact he.1
      rcases List.mem_cons.mp hmem with he | hmem
      · simp at he; exact he.1
      rcases List.mem_append.mp hmem with hA | hD
      · rcases List.mem_append.mp hA with hB | hC
        · rcases List.mem_append.mp hB with hS | hM
          · obtain ⟨hh, _, hin⟩ := List.mem_flatMap.mp hS
            rcases List.mem_cons.mp hin with he | hin
            · exact Ev.noConfusion he
            rcases List.mem_cons.mp hin with he | hin
            · injection he with e1 e2
              rw [e2] at happ
              rw [cmdIsApply_sed] at happ
              exact Bool.noConfusion happ
            rcases List.mem_cons.mp hin with he | hin
            · exact Ev.noConfusion he
            · exact absurd hin (List.not_mem_nil _)
          · obtain ⟨c2, _, he⟩ := List.mem_map.mp hM
            simp at he; exact he.1.symm
        · rcases List.mem_cons.mp hC with he | hC
          · exact Ev.noConfusion he
          · exact absurd hC (List.not_mem_nil _)
      · obtain ⟨w, hw, hin⟩ := List.mem_flatMap.mp hD
        rcases List.mem_cons.mp hin with he | hin
        · exact Ev.noConfusion he
        rcases List.mem_append.mp hin with hM | hC
        · obtain ⟨c2, hc2, he⟩ := List.mem_map.mp hM
          injection he with e1 e2
          rw [← e2] at happ
          rw [cmdIsApply_worker_false latest c2 hc2] at happ
          exact Bool.noConfusion happ
        · rcases List.mem_cons.mp hC with he | hC
          · exact Ev.noConfusion he
          · exact absurd hC (List.not_mem_nil _)

theorem claim_C2_witness :
    ∃ c0, (Inventory.mk ["alpha", "beta"] ["w1"]).control.head? = some c0 ∧
      (main env0 ⟨["alpha", "beta"], ["w1"]⟩).2.countP evIsApply = 1 ∧
      ∀ h c, Ev.cmd h c ∈ (main env0 ⟨["alpha", "beta"], ["w1"]⟩).2 →
        cmdIsApply c = true → h = c0 :=
  claim_C2 env0 ⟨["alpha", "beta"], ["w1"]⟩ rfl

/-! ### C7: how many sessions are simultaneously open -/

theorem peak_nonneg (t : List Ev) : 0 ≤ peak t := by
  cases t with
  | nil => simp [peak]
  | cons e t => simp [peak]

theorem net_append (a b : List Ev) : net (a ++ b) = net a + net b := by
  simp [net]

theorem peak_cons (e : Ev) (t : List Ev) :
    peak (e :: t) = max 0 (evDelta e + peak t) := rfl

theorem net_cons (e : Ev) (t : List Ev) : net (e :: t) = evDelta e + net t := by
  simp [net]

theorem peak_append (a b : List Ev) :
    peak (a ++ b) = max (peak a) (net a + peak b) := by
  induction a with
  | nil =>
    simp [peak, net, max_eq_right (peak_nonneg b)]
  | cons e a ih =>
    rw [List.cons_append, peak_cons, ih, peak_cons, net_cons]
    have h0 := peak_nonneg a
    have h1 := peak_nonneg b
    simp only [max_def]
    split_ifs <;> omega

theorem net_take_le_peak (t : List Ev) (n : Nat) : net (t.take n) ≤ peak t := by
  induction t generalizing n with
  | nil => simp [net, peak]
  | cons e t ih =>
    cases n with
    | zero => simpa [net] using peak_nonneg (e :: t)
    | succ n =>
      simp only [List.take, net, List.map_cons, List.sum_cons, peak]
      have := ih n
      simp only [net] at this
      have h2 : evDelta e + (List.map evDelta (t.take n)).sum ≤ evDelta e + peak t := by
        omega
      exact le_trans h2 (le_max_right _ _)

theorem cmds_net_peak (t : List Ev) (h : ∀ e ∈ t, evDelta e = 0) :
    net t = 0 ∧ peak t = 0 := by
  induction t with
  | nil => simp [net, peak]
  | cons e t ih =>
    have he := h e (by simp)
    have ih2 := ih fun x hx => h x (by simp [hx])
    simp [net, peak, he, ih2.1, ih2.2]
    simp only [net] at ih2
    omega

theorem runAll_cmds_delta (env : Env) (h : String) (cs : List String) :
    ∀ e ∈ (runAll env h cs).2, evDelta e = 0 := by
  intro e he
  obtain ⟨c, _, rfl⟩ := runAll_mem env h cs e he
  rfl

theorem block_bound (h : String) (t S : List Ev) (hnt : net t = 0)
    (hpt : peak t = 0) (hpS : peak S ≤ 1) (hnS : net S ≤ 1) :
    peak ((Ev.connect h :: (t ++ [Ev.close h])) ++ S) ≤ 1 ∧
    net ((Ev.connect h :: (t ++ [Ev.close h])) ++ S) ≤ 1 := by
  have hS0 := peak_nonneg S
  have e1 : (Ev.connect h :: (t ++ [Ev.close h])) ++ S
      = Ev.connect h :: (t ++ (Ev.close h :: S)) := by simp
  constructor
  · rw [e1, peak_cons, peak_append, peak_cons]
    simp only [evDelta, hnt, hpt]
    simp only [max_def]
    split_ifs <;> omega
  · rw [e1, net_cons, net_append, net_cons]
    simp only [evDelta, hnt]
    omega

theorem sedLoop_bound (env : Env) (m : String) (hs : List String) :
    peak (sedLoop env m hs).2 ≤ 1 ∧ net (sedLoop env m hs).2 ≤ 1 := by
  induction hs with
  | nil => simp [sedLoop, peak, net]
  | cons h hs ih =>
    simp only [sedLoop]
    rcases ha : runAll env h [sedCmd m] with ⟨r, t⟩
    have hc : net t = 0 ∧ peak t = 0 := by
      refine cmds_net_peak t fun e he => ?_
      exact runAll_cmds_delta env h [sedCmd m] e (by rw [ha]; exact he)
    cases r with
    | error n =>
      simp only
      constructor
      · simp [peak, evDelta, hc.2]
      · simp [net, evDelta]
        simp only [net] at hc
        omega
    | ok u =>
      simp only
      exact block_bound h t (sedLoop env m hs).2 hc.1 hc.2 ih.1 ih.2

theorem workerLoop_bound (env : Env) (v : String) (ws : List String) :
    peak (workerLoop env v ws).2 ≤ 1 ∧ net (workerLoop env v ws).2 ≤ 1 := by
  induction ws with
  | nil => simp [workerLoop, peak, net]
  | cons w ws ih =>
    simp only [workerLoop]
    rcases ha : runAll env w (upgCmds false v) with ⟨r, t⟩
    have hc : net t = 0 ∧ peak t = 0 := by
      refine cmds_net_peak t fun e he => ?_
      exact runAll_cmds_delta env w (upgCmds false v) e (by rw [ha]; exact he)
    cases r with
    | error n =>
      simp only
      constructor
      · simp [peak, evDelta, hc.2]
      · simp [net, evDelta]
        simp only [net] at hc
        omega
    | ok u =>
      simp only
      exact block_bound w t (workerLoop env v ws).2 hc.1 hc.2 ih.1 ih.2

/-- C7 fails on the code: the claim that at most one remote session is open
at a time — with the session to a host closed before the next host is
contacted — is violated by every run with a non-empty inventory, because the
version-resolution session to the first control-plane host (opened at
main.py line 234) is still open while the source-rewrite loop (lines
246-251) opens a fresh session to each host, including to the first
control-plane host itself; it is only closed at line 258.  Concretely, on a
successful two-host run the peak number a simultaneously open sessions is 2,
refuting the bound 1. -/
theorem claim_C7_counterexample :
    ¬ sessionBound (main env0 ⟨["alpha", "beta"], []⟩).2 1 := by decide

/-- C7, amended: at most two remote sessions are open at any moment of any
fleet run (the long-lived session to the first control-plane host, plus at
most one other — each source-rewrite or worker-upgrade session is closed
before the next host is contacted). -/
theorem claim_C7 (env : Env) (inv : Inventory) :
    sessionBound (main env inv).2 2 := by
  obtain ⟨ctrl, ws⟩ := inv
  cases ctrl with
  | nil => simp [main, sessionBound, peak]
  | cons c0 cs =>
    simp only [main, sessionBound]
    rcases h1 : runCmd (env c0 (sudoWrap catCmd)) with n | out1
    · simp [peak, evDelta]
    simp only
    rcases h2 : parseCurrent out1 with _ | cur
    · simp [peak, evDelta]
    simp only
    rcases h3 : runCmd (env c0 (sudoWrap madisonCmd)) with n | out2
    · simp [peak, evDelta]
    simp only
    rcases h4 : parseLatest out2 with _ | latest
    · simp [peak, evDelta]
    simp only
    rcases h5 : sedLoop env (minorOf latest) (c0 :: cs ++ ws) with ⟨r5, t5⟩
    have hb5 : peak t5 ≤ 1 ∧ net t5 ≤ 1 := by
      have hb := sedLoop_bound env (minorOf latest) (c0 :: cs ++ ws)
      rw [h5] at hb
      exact hb
    have hp5 : (0 : Int) ≤ peak t5 := peak_nonneg t5
    cases r5 with
    | error n =>
      simp only
      rw [peak_append]
      have hh : peak [Ev.getpass, Ev.connect c0, Ev.cmd c0 catCmd,
          Ev.cmd c0 madisonCmd] = 1 := by simp [peak, evDelta]
      have hn : net [Ev.getpass, Ev.connect c0, Ev.cmd c0 catCmd,
          Ev.cmd c0 madisonCmd] = 1 := by simp [net, evDelta]
      rw [hh, hn]
      simp only [max_def]
      split_ifs <;> omega
    | ok u5 =>
      simp only
      rcases h6 : upgrade_k8s_node env c0 latest true with ⟨r6, t6⟩
      have hc6 : net t6 = 0 ∧ peak t6 = 0 := by
        refine cmds_net_peak t6 fun e he => ?_
        refine runAll_cmds_delta env c0 (upgCmds true latest) e ?_
        have h6u : runAll env c0 (upgCmds true latest) = (r6, t6) := h6
        rw [h6u]
        exact he
      have hh : peak [Ev.getpass, Ev.connect c0, Ev.cmd c0 catCmd,
          Ev.cmd c0 madisonCmd] = 1 := by simp [peak, evDelta]
      have hn : net [Ev.getpass, Ev.connect c0, Ev.cmd c0 catCmd,
          Ev.cmd c0 madisonCmd] = 1 := by simp [net, evDelta]
      cases r6 with
      | error n =>
        simp only
        rw [peak_append, peak_append, net_append, hh, hn]
        rw [hc6.2]
        simp only [max_def]
        split_ifs <;> omega
      | ok u6 =>
        simp only
        rcases h7 : workerLoop env latest ws with ⟨r7, t7⟩
        have hb7 : peak t7 ≤ 1 ∧ net t7 ≤ 1 := by
          have hb := workerLoop_bound env latest ws
          rw [h7] at hb
          exact hb
        have hp7 : (0 : Int) ≤ peak t7 := peak_nonneg t7
        simp only
        have hcl : peak [Ev.close c0] = 0 := by simp [peak, evDelta]
        have hncl : net [Ev.close c0] = -1 := by simp [net, evDelta]
        rw [peak_append, peak_append, peak_append, peak_append]
        simp only [net_append]
        rw [hh, hn, hc6.1, hc6.2, hcl, hncl]
        simp only [max_def]
        split_ifs <;> omega

/-! ### C6: idempotence of the source rewrite

The lemmas below track how `substFirst` (first-occurrence-per-line sed
substitution) interacts with the pattern matcher: a digit-run head is
preserved, the head character of a line is always preserved, and a position
where the pattern did not match cannot start matching after a substitution
(every replacement starts with `/v` followed by digits, so it can neither
complete a partial `/deb/` nor start a new `/v<digits>` where none was). -/

theorem data_mk (l : List Char) : (String.mk l).data = l := rfl

theorem matchVer_cons_ne (c : Char) (t : List Char) (hc : c ≠ '/') :
    matchVer (c :: t) = none := by
  cases t with
  | nil => rfl
  | cons c2 t2 => simp [matchVer, hc]

theorem matchVer_some_head {l r : List Char} (h : matchVer l = some r) :
    ∃ t, l = '/' :: t := by
  cases l with
  | nil => simp [matchVer] at h
  | cons c t =>
    cases t with
    | nil => simp [matchVer] at h
    | cons c2 t2 =>
      by_cases hc : c = '/'
      · exact ⟨c2 :: t2, by rw [hc]⟩
      · simp [matchVer, hc] at h

theorem substFirst_cons_of_none (repl : List Char) {c : Char} {t : List Char}
    (h : matchVer (c :: t) = none) :
    substFirst repl (c :: t) = c :: substFirst repl t := by
  simp [substFirst, h]

theorem substFirst_cons_of_some (repl : List Char) {c : Char} {t r : List Char}
    (h : matchVer (c :: t) = some r) :
    substFirst repl (c :: t) = repl ++ r := by
  simp [substFirst, h]

theorem head?_substFirst (rr : List Char) (l : List Char) :
    (substFirst ('/' :: 'v' :: rr) l).head? = l.head? := by
  cases l with
  | nil => rfl
  | cons c t =>
    rcases hm : matchVer (c :: t) with _ | r
    · rw [substFirst_cons_of_none _ hm]
      rfl
    · obtain ⟨t2, he⟩ := matchVer_some_head hm
      have hc : c = '/' := by injection he
      subst hc
      rw [substFirst_cons_of_some _ hm]
      rfl

theorem isDigit_ne_slash {c : Char} (h : c.isDigit = true) : c ≠ '/' := by
  intro he
  rw [he] at h
  exact absurd h (by decide)

theorem substFirst_digits (repl d r : List Char)
    (hd : ∀ c ∈ d, c.isDigit = true) :
    substFirst repl (d ++ r) = d ++ substFirst repl r := by
  induction d with
  | nil => simp
  | cons x d' ih =>
    have hx : x.isDigit = true := hd x (by simp)
    rw [List.cons_append]
    simp only [substFirst, matchVer_cons_ne x _ (isDigit_ne_slash hx)]
    rw [ih fun c hc => hd c (by simp [hc])]
    simp

theorem dropWhile_digits_append (d r : List Char)
    (hd : ∀ c ∈ d, c.isDigit = true) :
    (d ++ r).dropWhile Char.isDigit = r.dropWhile Char.isDigit := by
  induction d with
  | nil => rfl
  | cons x d' ih =>
    rw [List.cons_append, List.dropWhile_cons_of_pos (hd x (by simp))]
    exact ih fun c hc => hd c (by simp [hc])

theorem dropWhile_self_of_head (l : List Char) (p : Char → Bool)
    (h : ∀ y, l.head? = some y → p y = false) : l.dropWhile p = l := by
  cases l with
  | nil => rfl
  | cons x t => rw [List.dropWhile_cons_of_neg (by simp [h x rfl])]

theorem head?_dropWhile_not (l : List Char) (p : Char → Bool) :
    ∀ y, (l.dropWhile p).head? = some y → p y = false := by
  induction l with
  | nil => intro y hy; simp at hy
  | cons x t ih =>
    intro y hy
    by_cases hx : p x
    · rw [List.dropWhile_cons_of_pos hx] at hy
      exact ih y hy
    · rw [List.dropWhile_cons_of_neg hx] at hy
      simp at hy
      rw [← hy]
      simpa using hx

theorem matchDigits1_append (d S : List Char) (hd : ∀ c ∈ d, c.isDigit = true)
    (hne : d ≠ []) (hS : S.dropWhile Char.isDigit = S) :
    matchDigits1 (d ++ S) = some S := by
  cases d with
  | nil => exact absurd rfl hne
  | cons x d' =>
    have hx := hd x (by simp)
    rw [List.cons_append]
    simp only [matchDigits1, hx, if_true]
    rw [dropWhile_digits_append d' S fun c hc => hd c (by simp [hc]), hS]

theorem matchSlashDeb_some_iff {l r : List Char} :
    matchSlashDeb l = some r ↔ l = '/' :: 'd' :: 'e' :: 'b' :: '/' :: r := by
  constructor
  · intro h
    rcases l with _ | ⟨c1, _ | ⟨c2, _ | ⟨c3, _ | ⟨c4, _ | ⟨c5, r5⟩⟩⟩⟩⟩ <;>
      simp only [matchSlashDeb] at h
    · exact absurd h (by simp)
    · exact absurd h (by simp)
    · exact absurd h (by simp)
    · exact absurd h (by simp)
    · exact absurd h (by simp)
    · split_ifs at h with hcond
      obtain ⟨e1, e2, e3, e4, e5⟩ := hcond
      subst e1; subst e2; subst e3; subst e4; subst e5
      simp at h
      rw [h]
  · rintro rfl
    simp [matchSlashDeb]

theorem substFirst_cons_inv (rr : List Char) {t : List Char} {x : Char}
    {xs : List Char} (h : substFirst ('/' :: 'v' :: rr) t = x :: xs) :
    (x = '/' ∧ ∃ rs, matchVer t = some rs ∧ xs = 'v' :: (rr ++ rs)) ∨
    (∃ t', t = x :: t' ∧ matchVer (x :: t') = none ∧
      xs = substFirst ('/' :: 'v' :: rr) t') := by
  cases t with
  | nil => simp [substFirst] at h
  | cons c t' =>
    rcases hm : matchVer (c :: t') with _ | rs
    · right
      rw [substFirst_cons_of_none _ hm] at h
      injection h with i1 i2
      subst i1
      exact ⟨t', rfl, hm, i2.symm⟩
    · left
      rw [substFirst_cons_of_some _ hm] at h
      have h2 : '/' :: 'v' :: (rr ++ rs) = x :: xs := h
      injection h2 with i1 i2
      exact ⟨i1.symm, rs, rfl, i2.symm⟩


theorem matchSlashDeb_substFirst (rr : List Char) {l : List Char}
    (h : matchSlashDeb l = none) :
    matchSlashDeb (substFirst ('/' :: 'v' :: rr) l) = none := by
  rcases hS : matchSlashDeb (substFirst ('/' :: 'v' :: rr) l) with _ | r
  · rfl
  exfalso
  have hshape := matchSlashDeb_some_iff.mp hS
  rcases substFirst_cons_inv rr hshape with ⟨_, rs, _, hxs⟩ | ⟨t1, hl1, _, hxs1⟩
  · simp at hxs
  rcases substFirst_cons_inv rr hxs1.symm with ⟨hd, _⟩ | ⟨t2, ht2, _, hxs2⟩
  · exact absurd hd (by decide)
  rcases substFirst_cons_inv rr hxs2.symm with ⟨hd, _⟩ | ⟨t3, ht3, _, hxs3⟩
  · exact absurd hd (by decide)
  rcases substFirst_cons_inv rr hxs3.symm with ⟨hd, _⟩ | ⟨t4, ht4, _, hxs4⟩
  · exact absurd hd (by decide)
  have ht5 : ∃ t5, t4 = '/' :: t5 := by
    rcases substFirst_cons_inv rr hxs4.symm with ⟨_, rs, hm4, _⟩ | ⟨t5, ht5, _, _⟩
    · exact matchVer_some_head hm4
    · exact ⟨t5, ht5⟩
  obtain ⟨t5, ht5⟩ := ht5
  rw [hl1, ht2, ht3, ht4, ht5] at h
  rw [matchSlashDeb_some_iff.mpr rfl] at h
  exact Option.noConfusion h

theorem matchAfterDot_substFirst (rr : List Char) {l : List Char}
    (h : matchAfterDot l = none) :
    matchAfterDot (substFirst ('/' :: 'v' :: rr) l) = none := by
  cases l with
  | nil => rfl
  | cons c t =>
    by_cases hcd : c.isDigit
    · have hdr : (c :: t).takeWhile Char.isDigit ++ (c :: t).dropWhile Char.isDigit
          = c :: t := List.takeWhile_append_dropWhile _ _
      have hdig : ∀ x ∈ (c :: t).takeWhile Char.isDigit, x.isDigit = true :=
        fun x hx => List.mem_takeWhile_imp hx
      have hdne : (c :: t).takeWhile Char.isDigit ≠ [] := by
        rw [List.takeWhile_cons_of_pos hcd]
        simp
      have hst : ((c :: t).dropWhile Char.isDigit).dropWhile Char.isDigit
          = (c :: t).dropWhile Char.isDigit :=
        dropWhile_self_of_head _ _ (head?_dropWhile_not (c :: t) Char.isDigit)
      have hmd : matchDigits1 (c :: t) = some ((c :: t).dropWhile Char.isDigit) := by
        simp [matchDigits1, hcd, List.dropWhile_cons_of_pos hcd]
      have hmsd : matchSlashDeb ((c :: t).dropWhile Char.isDigit) = none := by
        simpa [matchAfterDot, hmd] using h
      have hsub : substFirst ('/' :: 'v' :: rr) (c :: t)
          = (c :: t).takeWhile Char.isDigit
            ++ substFirst ('/' :: 'v' :: rr) ((c :: t).dropWhile Char.isDigit) := by
        conv_lhs => rw [← hdr]
        exact substFirst_digits _ _ _ hdig
      have hS : (substFirst ('/' :: 'v' :: rr) ((c :: t).dropWhile Char.isDigit)).dropWhile
          Char.isDigit
          = substFirst ('/' :: 'v' :: rr) ((c :: t).dropWhile Char.isDigit) := by
        apply dropWhile_self_of_head
        intro y hy
        rw [head?_substFirst rr _] at hy
        exact head?_dropWhile_not (c :: t) Char.isDigit y hy
      have hmd2 := matchDigits1_append _ _ hdig hdne hS
      rw [hsub]
      simp only [matchAfterDot, hmd2]
      exact matchSlashDeb_substFirst rr hmsd
    · rcases hsf : substFirst ('/' :: 'v' :: rr) (c :: t) with _ | ⟨x, xs⟩
      · rfl
      · have hx : x = c := by
          have hh := head?_substFirst rr (c :: t)
          rw [hsf] at hh
          simpa using hh
        subst hx
        simp [matchAfterDot, matchDigits1, hcd]

theorem matchVerTail_substFirst (rr : List Char) {l : List Char}
    (h : matchVerTail l = none) :
    matchVerTail (substFirst ('/' :: 'v' :: rr) l) = none := by
  cases l with
  | nil => rfl
  | cons c t =>
    by_cases hcd : c.isDigit
    · have hdr : (c :: t).takeWhile Char.isDigit ++ (c :: t).dropWhile Char.isDigit
          = c :: t := List.takeWhile_append_dropWhile _ _
      have hdig : ∀ x ∈ (c :: t).takeWhile Char.isDigit, x.isDigit = true :=
        fun x hx => List.mem_takeWhile_imp hx
      have hdne : (c :: t).takeWhile Char.isDigit ≠ [] := by
        rw [List.takeWhile_cons_of_pos hcd]
        simp
      have hmd : matchDigits1 (c :: t) = some ((c :: t).dropWhile Char.isDigit) := by
        simp [matchDigits1, hcd, List.dropWhile_cons_of_pos hcd]
      have hsub : substFirst ('/' :: 'v' :: rr) (c :: t)
          = (c :: t).takeWhile Char.isDigit
            ++ substFirst ('/' :: 'v' :: rr) ((c :: t).dropWhile Char.isDigit) := by
        conv_lhs => rw [← hdr]
        exact substFirst_digits _ _ _ hdig
      have hS : (substFirst ('/' :: 'v' :: rr) ((c :: t).dropWhile Char.isDigit)).dropWhile
          Char.isDigit
          = substFirst ('/' :: 'v' :: rr) ((c :: t).dropWhile Char.isDigit) := by
        apply dropWhile_self_of_head
        intro y hy
        rw [head?_substFirst rr _] at hy
        exact head?_dropWhile_not (c :: t) Char.isDigit y hy
      have hmd2 := matchDigits1_append _ _ hdig hdne hS
      rw [hsub]
      simp only [matchVerTail, hmd2]
      rcases hr1 : (c :: t).dropWhile Char.isDigit with _ | ⟨c2, r2⟩
      · rfl
      · have hrest : (if c2 = '.' then matchAfterDot r2 else none) = none := by
          have := h
          simp only [matchVerTail, hmd, hr1] at this
          exact this
        by_cases hc2 : c2 = '.'
        · subst hc2
          have hmad : matchAfterDot r2 = none := by simpa using hrest
          rw [substFirst_cons_of_none ('/' :: 'v' :: rr)
            (matchVer_cons_ne '.' r2 (by decide))]
          simp only
          exact matchAfterDot_substFirst rr hmad
        · rcases hsf : substFirst ('/' :: 'v' :: rr) (c2 :: r2) with _ | ⟨x, xs⟩
          · simp
          · have hx : x = c2 := by
              have hh := head?_substFirst rr (c2 :: r2)
              rw [hsf] at hh
              simpa using hh
            subst hx
            simp [hc2]
    · rcases hsf : substFirst ('/' :: 'v' :: rr) (c :: t) with _ | ⟨x, xs⟩
      · rfl
      · have hx : x = c := by
          have hh := head?_substFirst rr (c :: t)
          rw [hsf] at hh
          simpa using hh
        subst hx
        simp [matchVerTail, matchDigits1, hcd]

theorem matchVer_substFirst (rr : List Char) {c : Char} {t : List Char}
    (h : matchVer (c :: t) = none) :
    matchVer (c :: substFirst ('/' :: 'v' :: rr) t) = none := by
  by_cases hc : c = '/'
  · subst hc
    cases t with
    | nil => rfl
    | cons c2 t2 =>
      rcases hm : matchVer (c2 :: t2) with _ | rs
      · rw [substFirst_cons_of_none _ hm]
        by_cases hc2 : c2 = 'v'
        · subst hc2
          have hvt : matchVerTail t2 = none := by simpa [matchVer] using h
          have hmv : matchVer ('/' :: 'v' :: substFirst ('/' :: 'v' :: rr) t2)
              = matchVerTail (substFirst ('/' :: 'v' :: rr) t2) := by
            simp [matchVer]
          rw [hmv]
          exact matchVerTail_substFirst rr hvt
        · simp [matchVer, hc2]
      · rw [substFirst_cons_of_some _ hm]
        rfl
  · exact matchVer_cons_ne c _ hc

theorem substFirst_idem (a b : List Char) (ha : a ≠ []) (hb : b ≠ [])
    (hda : ∀ c ∈ a, c.isDigit = true) (hdb : ∀ c ∈ b, c.isDigit = true)
    (l : List Char) :
    substFirst ('/' :: 'v' :: (a ++ '.' :: b ++ ['/', 'd', 'e', 'b', '/']))
        (substFirst ('/' :: 'v' :: (a ++ '.' :: b ++ ['/', 'd', 'e', 'b', '/'])) l)
      = substFirst ('/' :: 'v' :: (a ++ '.' :: b ++ ['/', 'd', 'e', 'b', '/'])) l := by
  induction l with
  | nil => rfl
  | cons c t ih =>
    rcases hm : matchVer (c :: t) with _ | r
    · rw [substFirst_cons_of_none _ hm,
        substFirst_cons_of_none _ (matchVer_substFirst _ hm), ih]
    · rw [substFirst_cons_of_some _ hm]
      have hA : matchVer ('/' :: 'v' :: ((a ++ '.' :: b ++ ['/', 'd', 'e', 'b', '/']) ++ r))
          = some r := by
        have e : (a ++ '.' :: b ++ ['/', 'd', 'e', 'b', '/']) ++ r
            = a ++ '.' :: (b ++ '/' :: 'd' :: 'e' :: 'b' :: '/' :: r) := by
          simp [List.append_assoc]
        rw [show matchVer ('/' :: 'v' :: ((a ++ '.' :: b ++ ['/', 'd', 'e', 'b', '/']) ++ r))
            = matchVerTail ((a ++ '.' :: b ++ ['/', 'd', 'e', 'b', '/']) ++ r) from by
          simp [matchVer]]
        rw [e]
        have hd1 := matchDigits1_append a ('.' :: (b ++ '/' :: 'd' :: 'e' :: 'b' :: '/' :: r))
          hda ha (List.dropWhile_cons_of_neg (by decide))
        simp only [matchVerTail, hd1, if_pos rfl]
        have hd2 := matchDigits1_append b ('/' :: 'd' :: 'e' :: 'b' :: '/' :: r)
          hdb hb (List.dropWhile_cons_of_neg (by decide))
        simp only [matchAfterDot, hd2]
        simp [matchSlashDeb]
      rw [show ('/' :: 'v' :: (a ++ '.' :: b ++ ['/', 'd', 'e', 'b', '/'])) ++ r
          = '/' :: ('v' :: ((a ++ '.' :: b ++ ['/', 'd', 'e', 'b', '/']) ++ r)) from rfl]
      rw [substFirst_cons_of_some _ hA]
      rfl

theorem splitOnC_ne_nil (sep : Char) (l : List Char) : splitOnC sep l ≠ [] := by
  cases l with
  | nil => simp [splitOnC]
  | cons c t =>
    simp only [splitOnC]
    rcases h : splitOnC sep t with _ | ⟨p, ps⟩
    · simp
    · by_cases hc : c = sep <;> simp [hc]

theorem not_mem_splitOnC (sep : Char) (l : List Char) :
    ∀ p ∈ splitOnC sep l, sep ∉ p := by
  induction l with
  | nil =>
    intro p hp
    simp [splitOnC] at hp
    simp [hp]
  | cons c t ih =>
    intro p hp
    simp only [splitOnC] at hp
    rcases h : splitOnC sep t with _ | ⟨q, qs⟩
    · exact absurd h (splitOnC_ne_nil sep t)
    · rw [h] at hp
      by_cases hc : c = sep
      · simp only [hc, if_pos rfl] at hp
        rcases List.mem_cons.mp hp with rfl | hp
        · simp
        · exact ih p (by rw [h]; exact hp)
      · simp only [hc, if_false, if_neg hc] at hp
        rcases List.mem_cons.mp hp with rfl | hp
        · have hq := ih q (by rw [h]; simp)
          simp only [List.mem_cons]
          rintro (he | he)
          · exact hc he.symm
          · exact hq he
        · exact ih p (by rw [h]; simp [hp])

theorem splitOnC_append (sep : Char) (p l l0 : List Char) (ls : List (List Char))
    (hp : sep ∉ p) (hl : splitOnC sep l = l0 :: ls) :
    splitOnC sep (p ++ l) = (p ++ l0) :: ls := by
  induction p with
  | nil => simpa using hl
  | cons c p' ih =>
    have hc : ¬(c = sep) := fun he => hp (by simp [he])
    have hp' : sep ∉ p' := fun he => hp (by simp [he])
    rw [List.cons_append]
    simp only [splitOnC]
    rw [ih hp']
    simp [hc]

theorem splitOnC_sep_cons (sep : Char) (X : List Char) :
    splitOnC sep (sep :: X) = [] :: splitOnC sep X := by
  simp only [splitOnC]
  rcases h : splitOnC sep X with _ | ⟨q, qs⟩
  · exact absurd h (splitOnC_ne_nil sep X)
  · simp

theorem splitOnC_joinC (sep : Char) (ps : List (List Char))
    (h : ∀ p ∈ ps, sep ∉ p) (hne : ps ≠ []) :
    splitOnC sep (joinC sep ps) = ps := by
  induction ps with
  | nil => exact absurd rfl hne
  | cons p ps' ih =>
    cases ps' with
    | nil =>
      simp only [joinC]
      have h2 := splitOnC_append sep p [] [] [] (h p (by simp)) (by simp [splitOnC])
      simpa using h2
    | cons p2 ps'' =>
      simp only [joinC]
      have hih : splitOnC sep (joinC sep (p2 :: ps'')) = p2 :: ps'' :=
        ih (fun q hq => h q (by simp [hq])) (by simp)
      have hsc : splitOnC sep (sep :: joinC sep (p2 :: ps''))
          = [] :: (p2 :: ps'') := by
        rw [splitOnC_sep_cons, hih]
      have happ := splitOnC_append sep p (sep :: joinC sep (p2 :: ps'')) []
        (p2 :: ps'') (h p (by simp)) hsc
      simpa using happ

theorem matchDigits1_subset {l r : List Char} (h : matchDigits1 l = some r) :
    ∀ x ∈ r, x ∈ l := by
  cases l with
  | nil => simp [matchDigits1] at h
  | cons c t =>
    simp only [matchDigits1] at h
    split_ifs at h with hc
    · intro x hx
      have hr : t.dropWhile Char.isDigit = r := by injection h
      rw [← hr] at hx
      have hsub : (t.dropWhile Char.isDigit).Sublist t := List.dropWhile_sublist _
      have := hsub.subset hx
      simp [this]

theorem matchSlashDeb_subset {l r : List Char} (h : matchSlashDeb l = some r) :
    ∀ x ∈ r, x ∈ l := by
  rw [matchSlashDeb_some_iff] at h
  subst h
  intro x hx
  simp [hx]

theorem matchAfterDot_subset {l r : List Char} (h : matchAfterDot l = some r) :
    ∀ x ∈ r, x ∈ l := by
  rcases hd : matchDigits1 l with _ | r3
  · simp [matchAfterDot, hd] at h
  · simp only [matchAfterDot, hd] at h
    intro x hx
    exact matchDigits1_subset hd x (matchSlashDeb_subset h x hx)

theorem matchVerTail_subset {l r : List Char} (h : matchVerTail l = some r) :
    ∀ x ∈ r, x ∈ l := by
  rcases hd : matchDigits1 l with _ | r1
  · simp [matchVerTail, hd] at h
  · rcases r1 with _ | ⟨c2, r2⟩
    · simp [matchVerTail, hd] at h
    · simp only [matchVerTail, hd] at h
      split_ifs at h with hc2
      intro x hx
      have h2 := matchAfterDot_subset h x hx
      exact matchDigits1_subset hd x (by simp [h2])

theorem matchVer_subset {l r : List Char} (h : matchVer l = some r) :
    ∀ x ∈ r, x ∈ l := by
  cases l with
  | nil => simp [matchVer] at h
  | cons c1 t =>
    cases t with
    | nil => simp [matchVer] at h
    | cons c2 t2 =>
      simp only [matchVer] at h
      split_ifs at h with h1 h2
      intro x hx
      have := matchVerTail_subset h x hx
      simp [this]

theorem substFirst_chars (repl l : List Char) :
    ∀ x ∈ substFirst repl l, x ∈ l ∨ x ∈ repl := by
  induction l with
  | nil => simp [substFirst]
  | cons c t ih =>
    intro x hx
    rcases hm : matchVer (c :: t) with _ | r
    · simp only [substFirst, hm] at hx
      rcases List.mem_cons.mp hx with rfl | hx
      · left; simp
      · rcases ih x hx with h | h
        · left; simp [h]
        · right; exact h
    · simp only [substFirst, hm] at hx
      rcases List.mem_append.mp hx with h | h
      · right; exact h
      · left; exact matchVer_subset hm x h

theorem newline_not_mem_sedRepl (a b : List Char) (m : String)
    (hm : m.data = a ++ '.' :: b) (hda : ∀ c ∈ a, c.isDigit = true)
    (hdb : ∀ c ∈ b, c.isDigit = true) :
    '\n' ∉ sedRepl m := by
  intro hmem
  rw [sedRepl] at hmem
  rcases List.mem_cons.mp hmem with h | hmem
  · exact absurd h (by decide)
  rcases List.mem_cons.mp hmem with h | hmem
  · exact absurd h (by decide)
  rcases List.mem_append.mp hmem with h | h
  · rw [hm] at h
    rcases List.mem_append.mp h with h | h
    · exact absurd (hda _ h) (by decide)
    · rcases List.mem_cons.mp h with h | h
      · exact absurd h (by decide)
      · exact absurd (hdb _ h) (by decide)
  · rcases List.mem_cons.mp h with h | h
    · exact absurd h (by decide)
    rcases List.mem_cons.mp h with h | h
    · exact absurd h (by decide)
    rcases List.mem_cons.mp h with h | h
    · exact absurd h (by decide)
    rcases List.mem_cons.mp h with h | h
    · exact absurd h (by decide)
    rcases List.mem_cons.mp h with h | h
    · exact absurd h (by decide)
    · exact absurd h (List.not_mem_nil _)

/-- C6: the Source Rewriter is idempotent in content.  For every minor
version of the two-component shape the sequencer produces (a non-empty digit
run, a dot, a non-empty digit run — see §3's data model and `minorOf`) and
every file text, applying the sed substitution of `update_k8s_sources` twice
yields exactly the content of applying it once: the replacement `/v{m}/deb/`
itself matches the pattern at the same position, and no new match can be
created elsewhere, so the second pass rewrites the same spot with the same
text. -/
theorem claim_C6 (a b : List Char) (m : String) (hm : m.data = a ++ '.' :: b)
    (ha : a ≠ []) (hb : b ≠ []) (hda : ∀ c ∈ a, c.isDigit = true)
    (hdb : ∀ c ∈ b, c.isDigit = true) (s : String) :
    update_k8s_sources m (update_k8s_sources m s) = update_k8s_sources m s := by
  have hrepl : sedRepl m = '/' :: 'v' :: (a ++ '.' :: b ++ ['/', 'd', 'e', 'b', '/']) := by
    simp [sedRepl, hm, List.append_assoc]
  have hps : ∀ p ∈ (splitOnC '\x0a' s.data).map (substFirst (sedRepl m)),
      ('\x0a') ∉ p := by
    intro q hq
    obtain ⟨p, hp, rfl⟩ := List.mem_map.mp hq
    intro hx
    rcases substFirst_chars (sedRepl m) p '\x0a' hx with h | h
    · exact not_mem_splitOnC '\x0a' s.data p hp h
    · exact newline_not_mem_sedRepl a b m hm hda hdb h
  have hnem : (splitOnC '\x0a' s.data).map (substFirst (sedRepl m)) ≠ [] := by
    intro h0
    exact splitOnC_ne_nil '\x0a' s.data (List.map_eq_nil_iff.mp h0)
  simp only [update_k8s_sources, data_mk]
  congr 1
  rw [splitOnC_joinC '\x0a' _ hps hnem, List.map_map]
  refine congrArg (joinC '\x0a') ?_
  apply List.map_congr_left
  intro p _
  have hi := substFirst_idem a b ha hb hda hdb p
  simp only [Function.comp]
  rw [hrepl]
  exact hi

theorem claim_C6_witness :
    update_k8s_sources "1.29" (update_k8s_sources "1.29"
        "deb https://pkgs.k8s.io/core:/stable:/v1.28/deb/ /\nother line")
      = update_k8s_sources "1.29"
          "deb https://pkgs.k8s.io/core:/stable:/v1.28/deb/ /\nother line" :=
  claim_C6 ['1'] ['2', '9'] "1.29" (by decide) (by decide) (by decide)
    (by decide) (by decide)
    "deb https://pkgs.k8s.io/core:/stable:/v1.28/deb/ /\nother line"

namespace UpdateNode

/-- C9 fails on the code as stated: a failure to deliver a notification is
not always survived.  The script only continues past deliveries that
produce an HTTP response; when `requests.post` itself fails (notifier
unreachable), the exception is uncaught and the script dies.  Concretely,
when the pre-upgrade change-summary post raises, the run aborts before
`cache.commit()`: no upgrade is committed and no reboot marker is created —
the script did not log and continue past that failed notification
attempt. -/
theorem claim_C9_counterexample :
    (update_k8s_node nodeEnvRaise "node1").1 = Except.error 1 ∧
    NEv.commit ∉ (update_k8s_node nodeEnvRaise "node1").2 ∧
    NEv.createRebootFile ∉ (update_k8s_node nodeEnvRaise "node1").2 :=
  ⟨rfl, by decide, by decide⟩

/-- C9, amended: a notification failure is non-fatal only at the HTTP
level.  First conjunct: on the normal path, whenever both posts return a
response (ok or not), the run completes, its non-print actions are
independent of the responses, the upgrade is still committed and the reboot
marker still created, and each non-ok response has its text printed — the
script continues past every failed-but-delivered notification.  Second
conjunct: the same for the single post of the reboot-pending branch.  Third
conjunct: when the pre-upgrade change-summary post raises a transport-level
exception instead, the script aborts with a non-zero status before
`cache.commit()`. -/
theorem claim_C9 :
    (∀ (chs : List String) (r1 r2 r3 : Resp) (hn : String),
      (update_k8s_node ⟨false, chs, PostRes.resp r1, PostRes.resp r2,
          PostRes.resp r3⟩ hn).1 = Except.ok () ∧
      stripPrints (update_k8s_node ⟨false, chs, PostRes.resp r1, PostRes.resp r2,
          PostRes.resp r3⟩ hn).2
        = stripPrints (update_k8s_node ⟨false, chs, PostRes.resp ⟨true, ""⟩,
            PostRes.resp ⟨true, ""⟩, PostRes.resp ⟨true, ""⟩⟩ hn).2 ∧
      NEv.commit ∈ (update_k8s_node ⟨false, chs, PostRes.resp r1, PostRes.resp r2,
          PostRes.resp r3⟩ hn).2 ∧
      NEv.createRebootFile ∈ (update_k8s_node ⟨false, chs, PostRes.resp r1,
          PostRes.resp r2, PostRes.resp r3⟩ hn).2 ∧
      (r2.ok = false → NEv.printed r2.text ∈ (update_k8s_node ⟨false, chs,
          PostRes.resp r1, PostRes.resp r2, PostRes.resp r3⟩ hn).2) ∧
      (r3.ok = false → NEv.printed r3.text ∈ (update_k8s_node ⟨false, chs,
          PostRes.resp r1, PostRes.resp r2, PostRes.resp r3⟩ hn).2)) ∧
    (∀ (chs : List String) (r1 : Resp) (p2 p3 : PostRes) (hn : String),
      (update_k8s_node ⟨true, chs, PostRes.resp r1, p2, p3⟩ hn).1
          = Except.ok () ∧
      (r1.ok = false → NEv.printed r1.text
          ∈ (update_k8s_node ⟨true, chs, PostRes.resp r1, p2, p3⟩ hn).2)) ∧
    (∀ (chs : List String) (p1 p3 : PostRes) (hn : String),
      (update_k8s_node ⟨false, chs, p1, PostRes.raises, p3⟩ hn).1
          = Except.error 1 ∧
      NEv.commit ∉ (update_k8s_node ⟨false, chs, p1, PostRes.raises, p3⟩ hn).2 ∧
      NEv.createRebootFile
          ∉ (update_k8s_node ⟨false, chs, p1, PostRes.raises, p3⟩ hn).2) := by
  refine ⟨?_, ?_, ?_⟩
  · intro chs r1 r2 r3 hn
    obtain ⟨ok2, t2⟩ := r2
    obtain ⟨ok3, t3⟩ := r3
    cases ok2 <;> cases ok3 <;>
      simp [update_k8s_node, postStep, stripPrints, isPrinted, List.filter]
  · intro chs r1 p2 p3 hn
    obtain ⟨ok1, t1⟩ := r1
    cases ok1 <;> simp [update_k8s_node, postStep]
  · intro chs p1 p3 hn
    simp [update_k8s_node, postStep]

theorem claim_C9_witness :
    NEv.printed "boom" ∈ (update_k8s_node nodeEnvW "node1").2 ∧
    NEv.printed "bam" ∈ (update_k8s_node nodeEnvW "node1").2 ∧
    NEv.commit ∈ (update_k8s_node nodeEnvW "node1").2 ∧
    NEv.createRebootFile ∈ (update_k8s_node nodeEnvW "node1").2 ∧
    (update_k8s_node nodeEnvW "node1").1 = Except.ok () ∧
    (update_k8s_node ⟨false, ["curl"], PostRes.resp ⟨true, ""⟩, PostRes.raises,
        PostRes.resp ⟨true, ""⟩⟩ "node1").1 = Except.error 1 :=
  ⟨(claim_C9.1 ["curl", "vim"] ⟨true, ""⟩ ⟨false, "boom"⟩ ⟨false, "bam"⟩
      "node1").2.2.2.2.1 rfl,
   (claim_C9.1 ["curl", "vim"] ⟨true, ""⟩ ⟨false, "boom"⟩ ⟨false, "bam"⟩
      "node1").2.2.2.2.2 rfl,
   (claim_C9.1 ["curl", "vim"] ⟨true, ""⟩ ⟨false, "boom"⟩ ⟨false, "bam"⟩
      "node1").2.2.1,
   (claim_C9.1 ["curl", "vim"] ⟨true, ""⟩ ⟨false, "boom"⟩ ⟨false, "bam"⟩
      "node1").2.2.2.1,
   (claim_C9.1 ["curl", "vim"] ⟨true, ""⟩ ⟨false, "boom"⟩ ⟨false, "bam"⟩
      "node1").1,
   (claim_C9.2.2 ["curl"] (PostRes.resp ⟨true, ""⟩) (PostRes.resp ⟨true, ""⟩)
      "node1").1⟩

end UpdateNode

end K8sUpgrade
